import Mathlib

/-!
Formal model of the `handle_core` userspace core-dump handler.

The program (src/handle_core.c) writes a core image streamed on stdin to a
uniquely named file, prunes the core directory down to a configured maximum
number of core files, and optionally notifies an operator.  This file embeds
the pure content of those routines over lists and strings:

* directory entries are strings (file names); a `readdir` stream is the list
  of entries in the order the scan sees them;
* C byte strings are Lean `String`s; the file names involved are ASCII, so
  `strcmp`'s byte order coincides with the order on `Char` codepoints of
  `String.data`, which the model's `charsLt` implements directly;
* `unlink` outcomes are an oracle `String → UnlinkResult` (success, ENOENT,
  or another errno), standing for the state of the shared directory;
* allocation (`malloc`/`strdup`/`realloc`) is assumed to succeed: the
  allocation-failure `break`s in the scan loop are not taken;
* `qsort` is modelled by `List.insertionSort` with the same comparator
  semantics (the names involved are distinct in any real directory, so the
  unspecified tie order of `qsort` is immaterial).
-/

namespace HandleCore

/-- `BUF_SIZE` from handle_core.c: the stdin read granularity in bytes. -/
def BUF_SIZE : Nat := 1024

/-- `MAX_CORE_SCAN` from handle_core.c: the scan loop stops collecting
entries once more than this many core files have been recorded. -/
def MAX_CORE_SCAN : Nat := 500000

/-- The literal `CORE_PREFIX` `"core."`; `CORE_PREFIX_SZ` is its length 5. -/
def corePre : String := "core."

/-- `strncmp(de->d_name, CORE_PREFIX, CORE_PREFIX_SZ) == 0`: the first five
bytes of the entry name are `c`, `o`, `r`, `e`, `.`.  A name shorter than
five bytes compares unequal (its NUL terminator mismatches), exactly as the
`take`-based test is false for it. -/
def isCoreFileName (s : String) : Bool := s.data.take 5 == corePre.data

/-- `strcmp a b < 0` on the character lists of two ASCII names: true when
`a` is strictly lexically smaller than `b`.  A proper prefix is smaller
(its NUL byte 0 is below every character byte). -/
def charsLt : List Char → List Char → Bool
  | [], [] => false
  | [], _ :: _ => true
  | _ :: _, [] => false
  | a :: as, b :: bs => if a < b then true else if b < a then false else charsLt as bs

/-- The order in which `qsort(cores, …, compare_core_file_names)` leaves the
array: `compare_core_file_names(a, b) = strcmp(b, a)`, so `a` may precede
`b` exactly when `strcmp(b, a) ≤ 0`, i.e. when `a` is not lexically smaller
than `b` — reverse alphabetical, newest-looking names first. -/
def newerFirst (a b : String) : Prop := charsLt a.data b.data = false

instance : DecidableRel newerFirst :=
  fun a b => inferInstanceAs (Decidable (charsLt a.data b.data = false))

/-- Plain ascending byte order (`strcmp(a, b) ≤ 0`): the order `glob`
leaves its matches in. -/
def olderFirst (a b : String) : Prop := charsLt b.data a.data = false

instance : DecidableRel olderFirst :=
  fun a b => inferInstanceAs (Decidable (charsLt b.data a.data = false))

/-- The `readdir` collection loop of `limit_core_files`, entered with
`num_cores = n` names already recorded: skip entries that do not begin with
`core.`; record a matching entry, then stop the whole scan if the count now
exceeds `MAX_CORE_SCAN`. -/
def scanCores : List String → Nat → List String
  | [], _ => []
  | d :: rest, n =>
    if isCoreFileName d then
      if n + 1 > MAX_CORE_SCAN then [d]
      else d :: scanCores rest (n + 1)
    else scanCores rest n

/-- The `qsort` call of `limit_core_files`: reverse alphabetical order. -/
def sortCores (l : List String) : List String := List.insertionSort newerFirst l

/-- Outcome of one `unlink` call: success, `ENOENT` (entry already gone),
or failure with another errno value (e.g. `EACCES` 13, `EIO` 5). -/
inductive UnlinkResult
  | ok
  | enoent
  | fail (errno : Nat)
deriving DecidableEq

/-- Whether an unlink outcome is a non-`ENOENT` failure (the kind that makes
the deletion loop take `goto done`). -/
def UnlinkResult.isFail : UnlinkResult → Bool
  | .fail _ => true
  | _ => false

/-- What the deletion loop did: the names it successfully unlinked in the
order it processed them, the names whose unlink reported `ENOENT` (they had
already vanished), and the errno of the failure that aborted the loop via
`goto done`, if any. -/
structure LoopResult where
  deleted : List String
  vanished : List String
  abortErr : Option Nat
deriving DecidableEq

/-- The deletion loop of `limit_core_files` (`for (i = num_cores - 1;
i >= max_cores; i--)`), given its victims in processing order: unlink each;
on success count it and continue; on `ENOENT` continue without counting; on
any other errno stop at once (`goto done`). -/
def deleteLoop (unlink : String → UnlinkResult) : List String → LoopResult
  | [] => ⟨[], [], none⟩
  | v :: vs =>
    match unlink v with
    | .ok =>
      let r := deleteLoop unlink vs
      ⟨v :: r.deleted, r.vanished, r.abortErr⟩
    | .enoent =>
      let r := deleteLoop unlink vs
      ⟨r.deleted, v :: r.vanished, r.abortErr⟩
    | .fail e => ⟨[], [], some e⟩

/-- The names the deletion loop processes, in processing order: the sorted
array holds the lexically greatest names first, and the loop walks indices
`num_cores - 1` down to `max_cores`, i.e. the entries beyond the first
`max_cores` of the sorted array, starting from the lexically smallest. -/
def victims (cores : List String) (max_cores : Nat) : List String :=
  ((sortCores cores).drop max_cores).reverse

/-- Result of one `limit_core_files` call: the observable deletions and the
C return value `ret` (the count of files deleted, or `-errno` on failure). -/
structure PassOutcome where
  deletedNames : List String
  vanished : List String
  ret : Int
deriving DecidableEq

/-- `limit_core_files(core_dir, max_cores)` after a successful `opendir`,
with `entries` the names `readdir` yields (in stream order) and `unlink`
the outcome of each attempted deletion. -/
def limit_core_files (entries : List String) (max_cores : Nat)
    (unlink : String → UnlinkResult) : PassOutcome :=
  let r := deleteLoop unlink (victims (scanCores entries 0) max_cores)
  { deletedNames := r.deleted
    vanished := r.vanished
    ret := match r.abortErr with
           | none => (r.deleted.length : Int)
           | some e => -(e : Int) }

/-- `limit_core_files` including the `opendir` step: on enumeration failure
the function returns `-errno` without touching anything. -/
def limit_core_files_run (dir : Except Nat (List String)) (max_cores : Nat)
    (unlink : String → UnlinkResult) : PassOutcome :=
  match dir with
  | .error e => { deletedNames := [], vanished := [], ret := -(e : Int) }
  | .ok entries => limit_core_files entries max_cores unlink

/-- The directory contents after a pass: every original entry that the pass
neither unlinked nor observed to be already gone (`ENOENT`). -/
def remainingDir (entries : List String) (o : PassOutcome) : List String :=
  entries.filter fun x => decide (x ∉ o.deletedNames ∧ x ∉ o.vanished)

/-- The entries the pass enumerated (scanned) that are still present after
it: the retained artifacts among those originally enumerated. -/
def retainedScanned (entries : List String) (o : PassOutcome) : List String :=
  (scanCores entries 0).filter fun x => decide (x ∉ o.deletedNames ∧ x ∉ o.vanished)

/-- Decimal digits of `n`, most significant first, as ASCII characters
(empty for 0) — the digit string `snprintf`'s `%d`/`%lld` produces. -/
def natChars (n : Nat) : List Char :=
  if n = 0 then []
  else natChars (n / 10) ++ [Char.ofNat (48 + n % 10)]
termination_by n
decreasing_by exact Nat.div_lt_self (Nat.pos_of_ne_zero (by assumption)) (by decide)

/-- `%d` / `%lld` rendering of a nonnegative value. -/
def natRepr (n : Nat) : String := if n = 0 then "0" else ⟨natChars n⟩

/-- The base name `get_core_name` builds (the part after `core_dir ++ "/"`,
which is what `readdir` later yields and `strcmp` compares):
`core.<year>-<mon>-<mday>_<seconds>.<exe>`.  `year` is `tm_year + 1900`,
`mon` is `tm_mon` (0-based month), `mday` is `tm_mday`, `seconds` is the
`time()` value; none of the numeric fields is zero-padded. -/
def coreBaseName (year mon mday seconds : Nat) (exe : String) : String :=
  corePre ++ natRepr year ++ "-" ++ natRepr mon ++ "-" ++ natRepr mday ++ "_"
    ++ natRepr seconds ++ "." ++ exe

/-- `get_core_name(core_dir, exe_name, core_name)`: the full path written
into `core_name`. -/
def get_core_name (core_dir : String) (year mon mday seconds : Nat)
    (exe : String) : String :=
  core_dir ++ "/" ++ coreBaseName year mon mday seconds exe

/-- Leading-digit accumulation of C `atoi`: consume decimal digits from the
front, stopping at the first non-digit. -/
def atoiDigits : List Char → Nat → Nat
  | [], acc => acc
  | c :: cs, acc =>
    if c.isDigit then atoiDigits cs (10 * acc + (c.toNat - 48)) else acc

/-- C `atoi`: skip leading whitespace, read an optional sign, then leading
decimal digits; 0 when no digits are present. -/
def atoi (s : String) : Int :=
  let l := s.data.dropWhile fun c =>
    c = ' ' ∨ c = '\t' ∨ c = '\n' ∨ c = '\x0b' ∨ c = '\x0c' ∨ c = '\r'
  match l with
  | '-' :: rest => -(atoiDigits rest 0 : Int)
  | '+' :: rest => (atoiDigits rest 0 : Int)
  | _ => (atoiDigits l 0 : Int)

/-- The `-m` branch of `parse_options`: `*max_cores = atoi(optarg)`, and the
option is rejected (error message, `return 1`) exactly when that value is 0;
otherwise the value is accepted as the configured maximum. -/
def parse_max_cores (optarg : String) : Option Int :=
  let v := atoi optarg
  if v = 0 then none else some v

/-- The stdin→file copy loop of `main`, processing the successive `fread`
results (`chunks`): a full `BUF_SIZE` chunk is written and the loop goes on;
at the first short chunk the code tests `ferror(fp)` — the error indicator
of the *destination* stream, whose value at that moment is `destErrFlag` —
and either returns `errnoVal` without writing (error path) or writes the
short chunk and finishes (EOF path).  Returns the bytes written to the file
and the errno the program exits with, if any.  `fwrite` itself is modelled
as succeeding (`res == nread`): the claims under study concern the read
side, and a write failure is a separate exit path of `main`. -/
def copyLoop (destErrFlag : Bool) (errnoVal : Nat) :
    List (List Nat) → List Nat × Option Nat
  | [] => ([], none)
  | c :: cs =>
    if c.length = BUF_SIZE then
      let r := copyLoop destErrFlag errnoVal cs
      (c ++ r.1, r.2)
    else if destErrFlag then ([], some errnoVal)
    else (c, none)

/-- Split a byte stream into the chunks `fread(buf, 1, BUF_SIZE, stdin)`
yields when stdin delivers the whole stream and then signals end of file:
full chunks followed by one final short (possibly empty) chunk. -/
def chunkify (l : List Nat) : List (List Nat) :=
  if l.length < BUF_SIZE then [l]
  else l.take BUF_SIZE :: chunkify (l.drop BUF_SIZE)
termination_by l.length
decreasing_by
  simp only [List.length_drop, BUF_SIZE] at *
  omega

/-- The environment of one copy phase: the `fread` results, whether the
short final read was caused by a read error on stdin (as opposed to end of
file), the value `ferror(fp)` has when the short read is seen, and the
errno then in effect. -/
structure CopyEnv where
  chunks : List (List Nat)
  stdinErrored : Bool
  destErrFlag : Bool
  errnoVal : Nat

/-- Inputs of one `main` invocation, after `getopt` processing: whether
`parse_options` succeeded, the configured maximum, the `fopen` outcome for
the new core file, the copy-phase environment, the retention pass inputs,
and the `send_mail` return value. -/
structure MainEnv where
  parseOk : Bool
  maxCores : Nat
  fopenErr : Option Nat
  copy : CopyEnv
  dirListing : Except Nat (List String)
  unlink : String → UnlinkResult
  mailRet : Nat

/-- Observable result of one `main` invocation. -/
structure MainResult where
  exitCode : Int
  coreFile : Option (List Nat)
  retentionRet : Option Int
  notifierRan : Bool
deriving DecidableEq

/-- `main` of handle_core.c: parse options (exit 1 on failure), open the
core file (exit with errno on failure), run the copy loop (exit with errno
on its error path, the partial file left in place), run `limit_core_files`
(its failure is only logged), call `send_mail` (its failure is only
logged), and return 0. -/
def mainModel (env : MainEnv) : MainResult :=
  if !env.parseOk then ⟨1, none, none, false⟩
  else
    match env.fopenErr with
    | some e => ⟨(e : Int), none, none, false⟩
    | none =>
      let w := copyLoop env.copy.destErrFlag env.copy.errnoVal env.copy.chunks
      match w.2 with
      | some e => ⟨(e : Int), some w.1, none, false⟩
      | none =>
        let o := limit_core_files_run env.dirListing env.maxCores env.unlink
        ⟨0, some w.1, some o.ret, true⟩

/-!
The historical variant of the retention pass (src/unnamed/part_000), kept in
the repository as a near-duplicate of the program: `count_core_files` counts
the entries matching the glob pattern `core.*`, and `main` then repeatedly
calls `unlink_core`, which re-globs the directory and unlinks the first
entry in glob sort order, until the count is down to `max_cores`.
-/

/-- `fnmatch(CORE_PATTERN, d_name, 0) == 0` with `CORE_PATTERN = "core.*"`:
`*` matches any (possibly empty) suffix, and `fnmatch` without
`FNM_PERIOD`-style flags imposes nothing else, so the pattern holds exactly
when the name begins with the five bytes `core.` — the same test as
`isCoreFileName`. -/
def fnmatchCore (s : String) : Bool := s.data.take 5 == corePre.data

/-- `count_core_files(core_dir)` after a successful `opendir`: the number
of entries matching `core.*`. -/
def count_core_files (entries : List String) : Nat :=
  (entries.filter fnmatchCore).length

/-- The sorted match list `glob("<core_dir>/core.*")` produces: glob sorts
its results in ascending byte order. -/
def globSortedCores (entries : List String) : List String :=
  List.insertionSort olderFirst (entries.filter fnmatchCore)

/-- One iteration body of the historical deletion loop: `unlink_core`
deletes `gl_pathv[0]`, the first entry in glob sort order, if any match
exists; afterwards `main` decrements its count and increments `num_deleted`
whether or not the unlink succeeded. -/
def historicalStep (entries : List String) : List String × Option String :=
  match (globSortedCores entries).head? with
  | some v => (entries.erase v, some v)
  | none => (entries, none)

/-- `n` iterations of the historical `while (num_coref > max_cores)` loop,
each re-globbing the current directory: returns the final directory
contents and the names deleted, in deletion order. -/
def historicalLoop : List String → Nat → List String × List String
  | es, 0 => (es, [])
  | es, n + 1 =>
    match historicalStep es with
    | (es1, some v) =>
      let r := historicalLoop es1 n
      (r.1, v :: r.2)
    | (_, none) => historicalLoop es n

/-- Result of the historical retention phase. -/
structure HistoricalOutcome where
  remaining : List String
  deletedNames : List String
  numDeleted : Nat
deriving DecidableEq

/-- The retention phase of the historical `main`: count the matching
entries, then delete the glob-first entry `count - max_cores` times
(`num_deleted` counts every loop iteration). -/
def historical_retention (entries : List String) (max_cores : Nat) :
    HistoricalOutcome :=
  let k := count_core_files entries
  let n := k - max_cores
  let r := historicalLoop entries n
  { remaining := r.1, deletedNames := r.2, numDeleted := n }

/-!  Auxiliary observers and concrete inputs used by individual claims. -/

/-- Numeric value of a most-significant-first ASCII digit list (left fold,
the inverse of `natChars`). -/
def charsVal (l : List Char) : Nat :=
  l.foldl (fun a c => 10 * a + (c.toNat - 48)) 0

/-- The epoch field of a generated core base name: the digit run following
the first underscore.  The date fields and the `core.` literal in front of
it contain no underscore, and the epoch digits end at the literal dot
before the executable tag, so this recovers `natRepr seconds` exactly. -/
def epochDigits (l : List Char) : List Char :=
  (((l.dropWhile fun c => c != '_').drop 1).takeWhile fun c => c.isDigit)

/-- An unlink oracle that always succeeds — a directory with no concurrent
mutation and no deletion errors. -/
def allOk : String → UnlinkResult := fun _ => .ok

/-- A directory stream of 500002 distinct core files, more than the scan
cap `MAX_CORE_SCAN` allows a single pass to consider. -/
def bigDir : List String :=
  (List.range 500002).map fun i => corePre ++ natRepr i

/-- An unlink oracle where deleting `core.2` fails with `EACCES` (13) and
every other deletion succeeds. -/
def eaccesOn2 : String → UnlinkResult :=
  fun s => if s = "core.2" then .fail 13 else .ok

/-- An unlink oracle where `core.a` has already vanished (`ENOENT`) and
every other deletion succeeds. -/
def goneA : String → UnlinkResult :=
  fun s => if s = "core.a" then .enoent else .ok

/-- A `main` environment whose dump phase succeeds (a 3-byte stream ends
normally) but whose retention pass cannot enumerate the directory
(`opendir` fails with `EACCES` 13). -/
def envEnumFail : MainEnv :=
  { parseOk := true
    maxCores := 10
    fopenErr := none
    copy := { chunks := [[1, 2, 3]], stdinErrored := false,
              destErrFlag := false, errnoVal := 0 }
    dirListing := .error 13
    unlink := allOk
    mailRet := 0 }

/-- A `main` environment where stdin delivers 3 bytes and then fails with a
read error (`stdinErrored`), while the destination stream's error indicator
— the one the code actually tests — is clear. -/
def envReadError : MainEnv :=
  { parseOk := true
    maxCores := 10
    fopenErr := none
    copy := { chunks := [[1, 2, 3]], stdinErrored := true,
              destErrFlag := false, errnoVal := 5 }
    dirListing := .ok []
    unlink := allOk
    mailRet := 0 }

/-!  Order theory of the `strcmp` model `charsLt`. -/

theorem string_eq_of_data_eq {a b : String} (h : a.data = b.data) : a = b := by
  cases a; cases b; simp_all

theorem charsLt_irrefl (l : List Char) : charsLt l l = false := by
  induction l with
  | nil => rfl
  | cons a as ih => simp [charsLt, lt_irrefl, ih]

theorem charsLt_cons_iff {x y : Char} {xs ys : List Char} :
    charsLt (x :: xs) (y :: ys) = true ↔
      x < y ∨ (x = y ∧ charsLt xs ys = true) := by
  rcases lt_trichotomy x y with h | rfl | h
  · simp [charsLt, h]
  · simp [charsLt, lt_irrefl]
  · have h1 : ¬ x < y := not_lt_of_gt h
    simp [charsLt, h1, h, h.ne']

theorem charsLt_trans : ∀ {a b c : List Char}, charsLt a b = true →
    charsLt b c = true → charsLt a c = true
  | [], b, c, h1, h2 => by
    cases b with
    | nil => simp [charsLt] at h1
    | cons y ys =>
      cases c with
      | nil => simp [charsLt] at h2
      | cons z zs => rfl
  | x :: xs, b, c, h1, h2 => by
    cases b with
    | nil => simp [charsLt] at h1
    | cons y ys =>
      cases c with
      | nil => simp [charsLt] at h2
      | cons z zs =>
        rcases charsLt_cons_iff.mp h1 with h | ⟨rfl, h⟩
        · rcases charsLt_cons_iff.mp h2 with h' | ⟨rfl, h'⟩
          · exact charsLt_cons_iff.mpr (Or.inl (lt_trans h h'))
          · exact charsLt_cons_iff.mpr (Or.inl h)
        · rcases charsLt_cons_iff.mp h2 with h' | ⟨rfl, h'⟩
          · exact charsLt_cons_iff.mpr (Or.inl h')
          · exact charsLt_cons_iff.mpr (Or.inr ⟨rfl, charsLt_trans h h'⟩)

theorem charsLt_asymm {a b : List Char} (h : charsLt a b = true) :
    charsLt b a = false := by
  cases hba : charsLt b a
  · rfl
  · have hcontra := charsLt_trans h hba
    rw [charsLt_irrefl] at hcontra
    cases hcontra

theorem charsLt_false_cases : ∀ {a b : List Char}, charsLt a b = false →
    a = b ∨ charsLt b a = true
  | [], [], _ => Or.inl rfl
  | [], _ :: _, h => by simp [charsLt] at h
  | _ :: _, [], _ => Or.inr rfl
  | x :: xs, y :: ys, h => by
    rcases lt_trichotomy x y with hxy | rfl | hxy
    · exact absurd ((@charsLt_cons_iff x y xs ys).mpr (Or.inl hxy)) (by simp [h])
    · have h' : charsLt xs ys = false := by
        cases hb : charsLt xs ys
        · rfl
        · exact absurd ((@charsLt_cons_iff x x xs ys).mpr (Or.inr ⟨rfl, hb⟩))
            (by simp [h])
      rcases charsLt_false_cases h' with rfl | h2
      · exact Or.inl rfl
      · exact Or.inr (charsLt_cons_iff.mpr (Or.inr ⟨rfl, h2⟩))
    · exact Or.inr (charsLt_cons_iff.mpr (Or.inl hxy))

instance : IsTrans String newerFirst where
  trans a b c hab hbc := by
    unfold newerFirst at *
    cases hac : charsLt a.data c.data
    · rfl
    · exfalso
      rcases charsLt_false_cases hab with hab' | hab' <;>
        rcases charsLt_false_cases hbc with hbc' | hbc'
      · rw [hab', hbc', charsLt_irrefl] at hac; cases hac
      · rw [hab'] at hac
        have := charsLt_trans hac hbc'
        rw [charsLt_irrefl] at this; cases this
      · rw [← hbc'] at hac
        have := charsLt_trans hac hab'
        rw [charsLt_irrefl] at this; cases this
      · have h1 := charsLt_trans hbc' hab'
        have := charsLt_trans hac h1
        rw [charsLt_irrefl] at this; cases this

instance : IsTotal String newerFirst where
  total a b := by
    unfold newerFirst
    cases hab : charsLt a.data b.data
    · exact Or.inl rfl
    · exact Or.inr (charsLt_asymm hab)

instance : IsAntisymm String newerFirst where
  antisymm a b hab hba := by
    unfold newerFirst at *
    rcases charsLt_false_cases hab with h | h
    · exact string_eq_of_data_eq h
    · rw [h] at hba; cases hba

instance : IsTrans String olderFirst where
  trans a b c hab hbc := by
    unfold olderFirst at *
    cases hca : charsLt c.data a.data
    · rfl
    · exfalso
      rcases charsLt_false_cases hab with h1 | h1 <;>
        rcases charsLt_false_cases hbc with h2 | h2
      · rw [h2, h1, charsLt_irrefl] at hca; cases hca
      · rw [h1] at h2
        have := charsLt_trans hca h2
        rw [charsLt_irrefl] at this; cases this
      · rw [h2] at hca
        have := charsLt_trans hca h1
        rw [charsLt_irrefl] at this; cases this
      · have := charsLt_trans hca (charsLt_trans h1 h2)
        rw [charsLt_irrefl] at this; cases this

instance : IsTotal String olderFirst where
  total a b := by
    unfold olderFirst
    cases hab : charsLt b.data a.data
    · exact Or.inl rfl
    · exact Or.inr (charsLt_asymm hab)

instance : IsAntisymm String olderFirst where
  antisymm a b hab hba := by
    unfold olderFirst at *
    rcases charsLt_false_cases hab with h | h
    · exact (string_eq_of_data_eq h).symm
    · rw [h] at hba; cases hba

/-!  The scan loop collects the matching entries, capped at
`MAX_CORE_SCAN + 1` names. -/

theorem scanCores_eq_take : ∀ (l : List String) (n : Nat), n ≤ MAX_CORE_SCAN →
    scanCores l n = (l.filter isCoreFileName).take (MAX_CORE_SCAN + 1 - n)
  | [], n, _ => by simp [scanCores]
  | d :: rest, n, h => by
    by_cases hd : isCoreFileName d
    · by_cases hn : n + 1 > MAX_CORE_SCAN
      · have hn' : n = MAX_CORE_SCAN := by omega
        subst hn'
        simp [scanCores, hd, List.filter_cons]
      · have h1 : n + 1 ≤ MAX_CORE_SCAN := by omega
        have harith : MAX_CORE_SCAN + 1 - n = (MAX_CORE_SCAN + 1 - (n + 1)) + 1 := by
          omega
        rw [harith]
        simp only [scanCores, hd, if_true, hn, if_false,
          List.filter_cons_of_pos hd, List.take_succ_cons]
        rw [scanCores_eq_take rest (n + 1) h1]
    · have hd' : isCoreFileName d = false := by simpa using hd
      rw [List.filter_cons_of_neg (by simp [hd'])]
      rw [show scanCores (d :: rest) n = scanCores rest n from by
        simp [scanCores, hd']]
      exact scanCores_eq_take rest n h

theorem scanCores_eq_filter {l : List String}
    (h : (l.filter isCoreFileName).length ≤ MAX_CORE_SCAN + 1) :
    scanCores l 0 = l.filter isCoreFileName := by
  rw [scanCores_eq_take l 0 (Nat.zero_le _)]
  exact List.take_of_length_le (by simpa using h)

theorem scanCores_sublist (l : List String) : (scanCores l 0).Sublist l := by
  rw [scanCores_eq_take l 0 (Nat.zero_le _)]
  exact (List.take_sublist _ _).trans (List.filter_sublist l)

/-!  Behaviour of the deletion loop. -/

theorem deleteLoop_allOk (u : String → UnlinkResult) (hu : ∀ s, u s = .ok)
    (l : List String) : deleteLoop u l = ⟨l, [], none⟩ := by
  induction l with
  | nil => rfl
  | cons v vs ih => simp [deleteLoop, hu v, ih]

theorem deleteLoop_append (u : String → UnlinkResult) :
    ∀ (l1 l2 : List String), (deleteLoop u l1).abortErr = none →
    deleteLoop u (l1 ++ l2) =
      ⟨(deleteLoop u l1).deleted ++ (deleteLoop u l2).deleted,
       (deleteLoop u l1).vanished ++ (deleteLoop u l2).vanished,
       (deleteLoop u l2).abortErr⟩
  | [], l2, _ => by simp [deleteLoop]
  | v :: vs, l2, h => by
    cases hv : u v with
    | ok =>
      have h' : (deleteLoop u vs).abortErr = none := by
        simpa [deleteLoop, hv] using h
      simp [deleteLoop, hv, deleteLoop_append u vs l2 h']
    | enoent =>
      have h' : (deleteLoop u vs).abortErr = none := by
        simpa [deleteLoop, hv] using h
      simp [deleteLoop, hv, deleteLoop_append u vs l2 h']
    | fail e => simp [deleteLoop, hv] at h

theorem deleteLoop_deleted_mem (u : String → UnlinkResult) :
    ∀ (l : List String) (d : String), d ∈ (deleteLoop u l).deleted → d ∈ l
  | v :: vs, d, hd => by
    cases hv : u v with
    | ok =>
      rw [deleteLoop, hv] at hd
      rcases hd with _ | hd'
      · exact List.mem_cons_self v vs
      · exact List.mem_cons_of_mem v (deleteLoop_deleted_mem u vs d (by assumption))
    | enoent =>
      rw [deleteLoop, hv] at hd
      exact List.mem_cons_of_mem v (deleteLoop_deleted_mem u vs d hd)
    | fail e => simp [deleteLoop, hv] at hd

theorem deleteLoop_vanished_mem (u : String → UnlinkResult) :
    ∀ (l : List String) (x : String), x ∈ (deleteLoop u l).vanished → x ∈ l
  | v :: vs, x, hx => by
    cases hv : u v with
    | ok =>
      rw [deleteLoop, hv] at hx
      exact List.mem_cons_of_mem v (deleteLoop_vanished_mem u vs x hx)
    | enoent =>
      rw [deleteLoop, hv] at hx
      rcases hx with _ | hx'
      · exact List.mem_cons_self v vs
      · exact List.mem_cons_of_mem v (deleteLoop_vanished_mem u vs x (by assumption))
    | fail e => simp [deleteLoop, hv] at hx

theorem deleteLoop_abort (u : String → UnlinkResult) :
    ∀ (l1 : List String) (v : String) (l2 : List String) (e : Nat),
    (∀ x ∈ l1, (u x).isFail = false) → u v = .fail e →
    deleteLoop u (l1 ++ v :: l2) =
      ⟨l1.filter (fun x => u x == .ok), l1.filter (fun x => u x == .enoent),
       some e⟩
  | [], v, l2, e, _, hv => by simp [deleteLoop, hv]
  | x :: xs, v, l2, e, hall, hv => by
    cases hx : u x with
    | ok =>
      simp [deleteLoop, hx, List.filter_cons,
        deleteLoop_abort u xs v l2 e (fun y hy => hall y (List.mem_cons_of_mem x hy)) hv]
    | enoent =>
      simp [deleteLoop, hx, List.filter_cons,
        deleteLoop_abort u xs v l2 e (fun y hy => hall y (List.mem_cons_of_mem x hy)) hv]
    | fail e2 =>
      have := hall x (List.mem_cons_self x xs)
      rw [hx] at this
      simp [UnlinkResult.isFail] at this

/-- On a strictly ascending victim list, everything the loop deleted is
lexically below everything it left untouched. -/
theorem deleteLoop_sorted_lt (u : String → UnlinkResult) :
    ∀ (l : List String),
    l.Pairwise (fun a b => charsLt a.data b.data = true) →
    ∀ d ∈ (deleteLoop u l).deleted, ∀ x ∈ l,
      x ∉ (deleteLoop u l).deleted → x ∉ (deleteLoop u l).vanished →
      charsLt d.data x.data = true
  | [], _, d, hd, _, _, _, _ => by simp [deleteLoop] at hd
  | v :: vs, hp, d, hd, x, hx, hxd, hxv => by
    have hp' := List.pairwise_cons.mp hp
    cases hv : u v with
    | ok =>
      rw [deleteLoop, hv] at hd hxd hxv
      have hxvs : x ∈ vs := by
        rcases hx with _ | hx'
        · exact absurd (List.mem_cons_self v _) hxd
        · assumption
      rcases hd with _ | hd'
      · exact hp'.1 x hxvs
      · exact deleteLoop_sorted_lt u vs hp'.2 d (by assumption) x hxvs
          (fun hc => hxd (List.mem_cons_of_mem v hc)) hxv
    | enoent =>
      rw [deleteLoop, hv] at hd hxd hxv
      have hxvs : x ∈ vs := by
        rcases hx with _ | hx'
        · exact absurd (List.mem_cons_self v _) hxv
        · assumption
      exact deleteLoop_sorted_lt u vs hp'.2 d hd x hxvs hxd
        (fun hc => hxv (List.mem_cons_of_mem v hc))
    | fail e => simp [deleteLoop, hv] at hd

/-!  Sorting facts. -/

theorem sortCores_perm (l : List String) : (sortCores l).Perm l :=
  List.perm_insertionSort newerFirst l

theorem sortCores_sorted (l : List String) :
    List.Sorted newerFirst (sortCores l) :=
  List.sorted_insertionSort newerFirst l

/-- With distinct names the sorted array is strictly descending. -/
theorem sortCores_strict {l : List String} (h : l.Nodup) :
    (sortCores l).Pairwise (fun a b => charsLt b.data a.data = true) := by
  have hn : (sortCores l).Nodup := ((sortCores_perm l).nodup_iff).mpr h
  refine ((sortCores_sorted l).and hn).imp ?_
  intro a b hab
  rcases charsLt_false_cases hab.1 with h1 | h1
  · exact absurd (string_eq_of_data_eq h1) hab.2
  · exact h1

/-- With distinct names the victim list is strictly ascending. -/
theorem victims_pairwise {l : List String} (h : l.Nodup) (m : Nat) :
    (victims l m).Pairwise (fun a b => charsLt a.data b.data = true) := by
  unfold victims
  rw [List.pairwise_reverse]
  exact (sortCores_strict h).sublist (List.drop_sublist m (sortCores l))

theorem mem_victims {l : List String} {m : Nat} {x : String} :
    x ∈ victims l m ↔ x ∈ (sortCores l).drop m := by
  unfold victims
  exact List.mem_reverse

/-- Everything kept (the first `max_cores` sorted entries) is lexically
above everything in the victim segment. -/
theorem kept_victims_lt {l : List String} (h : l.Nodup) (m : Nat) :
    ∀ a ∈ (sortCores l).take m, ∀ b ∈ (sortCores l).drop m,
      charsLt b.data a.data = true := by
  have hp := sortCores_strict h
  rw [← List.take_append_drop m (sortCores l)] at hp
  exact (List.pairwise_append.mp hp).2.2

/-!  The pass with no deletion errors. -/

theorem limit_allOk_outcome {entries : List String}
    (hlen : (entries.filter isCoreFileName).length ≤ MAX_CORE_SCAN + 1)
    (m : Nat) :
    limit_core_files entries m allOk =
      { deletedNames := victims (entries.filter isCoreFileName) m,
        vanished := [],
        ret := (((entries.filter isCoreFileName).length - m : Nat) : Int) } := by
  unfold limit_core_files
  rw [scanCores_eq_filter hlen, deleteLoop_allOk allOk (fun _ => rfl)]
  simp [victims, (sortCores_perm (entries.filter isCoreFileName)).length_eq]

theorem remainingDir_count {entries : List String} (hnd : entries.Nodup)
    (hlen : (entries.filter isCoreFileName).length ≤ MAX_CORE_SCAN + 1)
    (m : Nat) :
    ((remainingDir entries (limit_core_files entries m allOk)).filter
        isCoreFileName).length =
      min (entries.filter isCoreFileName).length m := by
  rw [limit_allOk_outcome hlen]
  unfold remainingDir
  simp only [List.not_mem_nil, and_true, not_false_eq_true]
  rw [List.filter_comm]
  set M := entries.filter isCoreFileName with hM
  have hMnd : M.Nodup := hnd.filter isCoreFileName
  have hperm : (M.filter fun x =>
      decide (x ∉ victims M m)).Perm
      ((sortCores M).filter fun x => decide (x ∉ victims M m)) :=
    ((sortCores_perm M).filter _).symm
  rw [hperm.length_eq]
  have hSnd : (sortCores M).Nodup := ((sortCores_perm M).nodup_iff).mpr hMnd
  rw [← List.take_append_drop m (sortCores M), List.filter_append]
  have hdropnil : ((sortCores M).drop m).filter
      (fun x => decide (x ∉ victims M m)) = [] := by
    rw [List.filter_eq_nil_iff]
    intro a ha
    simp only [decide_eq_true_eq, not_not]
    simpa [mem_victims] using ha
  have htakeall : ((sortCores M).take m).filter
      (fun x => decide (x ∉ victims M m)) = (sortCores M).take m := by
    rw [List.filter_eq_self]
    intro a ha
    simp only [decide_eq_true_eq]
    intro hc
    rw [mem_victims] at hc
    rw [← List.take_append_drop m (sortCores M)] at hSnd
    exact (List.disjoint_of_nodup_append hSnd) ha hc
  rw [hdropnil, htakeall, List.append_nil, List.length_take,
    (sortCores_perm M).length_eq]
  omega

/-!  Decimal rendering: `natChars` produces the digit string `%lld` prints,
and `charsVal` recovers the value. -/

theorem natChars_zero : natChars 0 = [] := by simp [natChars]

theorem natChars_pos {n : Nat} (h : n ≠ 0) :
    natChars n = natChars (n / 10) ++ [Char.ofNat (48 + n % 10)] := by
  rw [natChars]
  simp [h]

theorem digit_toNat (d : Nat) (h : d < 10) :
    (Char.ofNat (48 + d)).toNat = 48 + d := by
  interval_cases d <;> rfl

theorem digit_isDigit (d : Nat) (h : d < 10) :
    (Char.ofNat (48 + d)).isDigit = true := by
  interval_cases d <;> rfl

theorem digit_lt_digit (d1 d2 : Nat) (h1 : d1 < 10) (h2 : d2 < 10)
    (h : d1 < d2) : Char.ofNat (48 + d1) < Char.ofNat (48 + d2) := by
  interval_cases d1 <;> interval_cases d2 <;> decide

theorem natChars_digits (n : Nat) : ∀ c ∈ natChars n, c.isDigit = true := by
  induction n using Nat.strong_induction_on with
  | _ n ih =>
    by_cases h : n = 0
    · subst h; simp [natChars_zero]
    · rw [natChars_pos h]
      intro c hc
      rcases List.mem_append.mp hc with hc' | hc'
      · exact ih (n / 10)
          (Nat.div_lt_self (Nat.pos_of_ne_zero h) (by decide)) c hc'
      · have hc2 : c = Char.ofNat (48 + n % 10) := List.mem_singleton.mp hc'
        rw [hc2]
        exact digit_isDigit (n % 10) (Nat.mod_lt n (by decide))

theorem foldl_natChars : ∀ n : Nat, ∀ a : Nat,
    (natChars n).foldl (fun x c => 10 * x + (c.toNat - 48)) a =
      a * 10 ^ (natChars n).length + n := by
  intro n
  induction n using Nat.strong_induction_on with
  | _ n ih =>
    intro a
    by_cases h : n = 0
    · subst h; simp [natChars_zero]
    · rw [natChars_pos h, List.foldl_append, List.length_append,
        ih (n / 10) (Nat.div_lt_self (Nat.pos_of_ne_zero h) (by decide)) a]
      simp only [List.foldl_cons, List.foldl_nil, List.length_singleton]
      rw [digit_toNat (n % 10) (Nat.mod_lt n (by decide)), pow_succ,
        ← mul_assoc]
      generalize a * 10 ^ (natChars (n / 10)).length = B
      omega

theorem charsVal_natRepr (n : Nat) : charsVal (natRepr n).data = n := by
  unfold natRepr
  by_cases h : n = 0
  · subst h; rfl
  · rw [if_neg h]
    show charsVal (natChars n) = n
    unfold charsVal
    rw [foldl_natChars n 0]
    simp

theorem natRepr_inj {a b : Nat} (h : (natRepr a).data = (natRepr b).data) :
    a = b := by
  have ha := charsVal_natRepr a
  have hb := charsVal_natRepr b
  rw [h] at ha
  rw [hb] at ha
  exact ha.symm

theorem natRepr_digits (n : Nat) : ∀ c ∈ (natRepr n).data, c.isDigit = true := by
  unfold natRepr
  by_cases h : n = 0
  · subst h
    intro c hc
    have : c = '0' := by simpa using hc
    rw [this]; rfl
  · rw [if_neg h]
    exact natChars_digits n

theorem natRepr_data_pos {n : Nat} (h : n ≠ 0) : (natRepr n).data = natChars n := by
  unfold natRepr
  rw [if_neg h]

/-!  Lexical comparison of digit strings. -/

theorem charsLt_append_same : ∀ (p a b : List Char),
    charsLt (p ++ a) (p ++ b) = charsLt a b := by
  intro p
  induction p with
  | nil => simp
  | cons x xs ih => intro a b; simp [charsLt, lt_irrefl, ih]

theorem charsLt_append_of_lt : ∀ {a b : List Char}, a.length = b.length →
    charsLt a b = true → ∀ (s t : List Char), charsLt (a ++ s) (b ++ t) = true
  | [], [], _, h, _, _ => by simp [charsLt] at h
  | [], _ :: _, hlen, _, _, _ => by simp at hlen
  | _ :: _, [], hlen, _, _, _ => by simp at hlen
  | x :: xs, y :: ys, hlen, h, s, t => by
    rcases charsLt_cons_iff.mp h with h1 | ⟨rfl, h1⟩
    · exact charsLt_cons_iff.mpr (Or.inl h1)
    · exact charsLt_cons_iff.mpr
        (Or.inr ⟨rfl, charsLt_append_of_lt (by simpa using hlen) h1 s t⟩)

/-- Equal-width decimal renderings compare lexically exactly as the numbers
compare — this is where zero-padding (or here, equal digit counts) matters. -/
theorem natChars_lt : ∀ {e2 : Nat}, ∀ {e1 : Nat}, e1 < e2 →
    (natChars e1).length = (natChars e2).length →
    charsLt (natChars e1) (natChars e2) = true := by
  intro e2
  induction e2 using Nat.strong_induction_on with
  | _ e2 ih =>
    intro e1 hlt hlen
    have h2 : e2 ≠ 0 := by omega
    by_cases h1 : e1 = 0
    · subst h1
      rw [natChars_zero, natChars_pos h2] at hlen
      simp at hlen
    · rw [natChars_pos h1, natChars_pos h2] at hlen ⊢
      simp only [List.length_append, List.length_singleton] at hlen
      have hq : (natChars (e1 / 10)).length = (natChars (e2 / 10)).length := by
        omega
      have hdiv : e1 / 10 ≤ e2 / 10 := Nat.div_le_div_right (le_of_lt hlt)
      rcases lt_or_eq_of_le hdiv with hd | hd
      · exact charsLt_append_of_lt hq
          (ih (e2 / 10) (Nat.div_lt_self (Nat.pos_of_ne_zero h2) (by decide))
            hd hq) _ _
      · have hm : e1 % 10 < e2 % 10 := by omega
        rw [hd, charsLt_append_same]
        exact charsLt_cons_iff.mpr (Or.inl (digit_lt_digit (e1 % 10) (e2 % 10)
          (Nat.mod_lt e1 (by decide)) (Nat.mod_lt e2 (by decide)) hm))

/-!  Structure of generated names: recovering the epoch field. -/

theorem ne_underscore_of_isDigit {c : Char} (h : c.isDigit = true) :
    (c != '_') = true := by
  simp only [bne_iff_ne, ne_eq]
  intro hc
  subst hc
  exact absurd h (by decide)

theorem dropWhile_append_all (p : Char → Bool) :
    ∀ (l1 l2 : List Char), (∀ c ∈ l1, p c = true) →
    List.dropWhile p (l1 ++ l2) = List.dropWhile p l2
  | [], _, _ => rfl
  | x :: xs, l2, hall => by
    have hx : p x = true := hall x (List.mem_cons_self x xs)
    rw [List.cons_append, List.dropWhile_cons, if_pos hx]
    exact dropWhile_append_all p xs l2 fun c hc => hall c (List.mem_cons_of_mem x hc)

theorem takeWhile_append_stop (p : Char → Bool) :
    ∀ (l1 : List Char) (c : Char) (l2 : List Char),
    (∀ x ∈ l1, p x = true) → p c = false →
    List.takeWhile p (l1 ++ c :: l2) = l1
  | [], c, l2, _, hc => by
    rw [List.nil_append, List.takeWhile_cons, if_neg (by simp [hc])]
  | x :: xs, c, l2, hall, hc => by
    have hx : p x = true := hall x (List.mem_cons_self x xs)
    rw [List.cons_append, List.takeWhile_cons, if_pos hx,
      takeWhile_append_stop p xs c l2
        (fun y hy => hall y (List.mem_cons_of_mem x hy)) hc]

/-- `epochDigits` recovers exactly the seconds field of a generated name:
everything before the underscore (the `core.` literal, the three date
fields, the dashes) contains no underscore, and the epoch digit run ends at
the dot before the executable tag. -/
theorem epochDigits_coreBaseName (y m d e : Nat) (exe : String) :
    epochDigits (coreBaseName y m d e exe).data = (natRepr e).data := by
  unfold coreBaseName epochDigits
  simp only [String.data_append, List.append_assoc]
  have hpre : ∀ c ∈ corePre.data, (c != '_') = true := by decide
  have hdash : ∀ c ∈ ("-" : String).data, (c != '_') = true := by decide
  have hdigits : ∀ n : Nat, ∀ c ∈ (natRepr n).data, (c != '_') = true :=
    fun n c hc => ne_underscore_of_isDigit (natRepr_digits n c hc)
  rw [dropWhile_append_all _ _ _ hpre,
    dropWhile_append_all _ _ _ (hdigits y),
    dropWhile_append_all _ _ _ hdash,
    dropWhile_append_all _ _ _ (hdigits m),
    dropWhile_append_all _ _ _ hdash,
    dropWhile_append_all _ _ _ (hdigits d)]
  rw [List.singleton_append, List.dropWhile_cons, if_neg (by decide)]
  rw [List.drop_one, List.tail_cons, List.singleton_append]
  exact takeWhile_append_stop _ _ '.' _ (natRepr_digits e) (by decide)

/-!  Bridging the current pass and the historical glob-based variant. -/

theorem fnmatch_eq_isCore : fnmatchCore = isCoreFileName := rfl

/-- The reverse-alphabetical `qsort` result is the reverse of the ascending
glob order on the same names. -/
theorem sortCores_eq_reverse_asc (l : List String) :
    sortCores l = (List.insertionSort olderFirst l).reverse := by
  have hperm : (sortCores l).Perm (List.insertionSort olderFirst l).reverse :=
    (sortCores_perm l).trans
      ((List.perm_insertionSort olderFirst l).symm.trans
        (List.reverse_perm _).symm)
  have hs2 : List.Sorted newerFirst (List.insertionSort olderFirst l).reverse := by
    rw [List.Sorted, List.pairwise_reverse]
    exact (List.sorted_insertionSort olderFirst l).imp fun h => h
  exact List.eq_of_perm_of_sorted hperm (sortCores_sorted l) hs2

/-- The victim segment of the pass is an initial segment of the ascending
order: the `length - max_cores` lexically smallest scanned names, processed
smallest first. -/
theorem victims_eq_take_asc (l : List String) (m : Nat) :
    victims l m = (List.insertionSort olderFirst l).take (l.length - m) := by
  unfold victims
  rw [sortCores_eq_reverse_asc, List.reverse_drop, List.reverse_reverse,
    List.length_reverse, (List.perm_insertionSort olderFirst l).length_eq]

theorem globSortedCores_length (es : List String) :
    (globSortedCores es).length = count_core_files es := by
  unfold globSortedCores count_core_files
  exact (List.perm_insertionSort olderFirst _).length_eq

theorem globSortedCores_sorted (es : List String) :
    List.Sorted olderFirst (globSortedCores es) :=
  List.sorted_insertionSort olderFirst _

/-- Removing the glob-first name from the directory removes exactly the
head of the sorted match list. -/
theorem globSortedCores_erase {es : List String} {v : String} {A : List String}
    (hA : globSortedCores es = v :: A) :
    globSortedCores (es.erase v) = A := by
  have hvfil : v ∈ es.filter fnmatchCore := by
    have : v ∈ globSortedCores es := by rw [hA]; exact List.mem_cons_self v A
    exact ((List.perm_insertionSort olderFirst _).mem_iff).mp this
  have hves : v ∈ es := List.mem_of_mem_filter hvfil
  have hvmatch : fnmatchCore v = true := List.of_mem_filter hvfil
  have hperm : ((es.erase v).filter fnmatchCore).Perm A := by
    have h1 : (es.filter fnmatchCore).Perm
        (v :: (es.erase v).filter fnmatchCore) := by
      have h0 : es.Perm (v :: es.erase v) := List.perm_cons_erase hves
      have := h0.filter fnmatchCore
      rwa [List.filter_cons_of_pos hvmatch] at this
    have h2 : (globSortedCores es).Perm (v :: (es.erase v).filter fnmatchCore) :=
      (List.perm_insertionSort olderFirst _).trans h1
    rw [hA] at h2
    exact (h2.cons_inv).symm
  have hsortedA : List.Sorted olderFirst A := by
    have := globSortedCores_sorted es
    rw [hA] at this
    exact this.of_cons
  exact List.eq_of_perm_of_sorted
    ((List.perm_insertionSort olderFirst _).trans hperm) (globSortedCores_sorted _)
    hsortedA

/-- Each iteration of the historical loop deletes one name as long as any
match remains, so `n` iterations starting from at least `n` matches delete
exactly `n` names. -/
theorem historicalLoop_length : ∀ (n : Nat) (es : List String),
    n ≤ count_core_files es → ((historicalLoop es n).2).length = n
  | 0, es, _ => rfl
  | n + 1, es, h => by
    cases hA : globSortedCores es with
    | nil =>
      exfalso
      have := globSortedCores_length es
      rw [hA] at this
      simp at this
      omega
    | cons v A =>
      have hcount : count_core_files (es.erase v) = count_core_files es - 1 := by
        have h1 := globSortedCores_length (es.erase v)
        rw [globSortedCores_erase hA] at h1
        have h2 := globSortedCores_length es
        rw [hA] at h2
        simp at h2
        omega
      rw [show historicalLoop es (n + 1) =
          ((historicalLoop (es.erase v) n).1,
            v :: (historicalLoop (es.erase v) n).2) from by
        simp [historicalLoop, historicalStep, hA]]
      simp only [List.length_cons]
      rw [historicalLoop_length n (es.erase v) (by omega)]

/-- On a duplicate-free directory, `n` iterations of the historical loop
delete precisely the `n` lexically smallest matching names, in ascending
order. -/
theorem historicalLoop_deleted : ∀ (n : Nat) (es : List String), es.Nodup →
    n ≤ count_core_files es →
    (historicalLoop es n).2 = (globSortedCores es).take n
  | 0, es, _, _ => by simp [historicalLoop]
  | n + 1, es, hnd, h => by
    cases hA : globSortedCores es with
    | nil =>
      exfalso
      have := globSortedCores_length es
      rw [hA] at this
      simp at this
      omega
    | cons v A =>
      have hcount : count_core_files (es.erase v) = count_core_files es - 1 := by
        have h1 := globSortedCores_length (es.erase v)
        rw [globSortedCores_erase hA] at h1
        have h2 := globSortedCores_length es
        rw [hA] at h2
        simp at h2
        omega
      rw [show historicalLoop es (n + 1) =
          ((historicalLoop (es.erase v) n).1,
            v :: (historicalLoop (es.erase v) n).2) from by
        simp [historicalLoop, historicalStep, hA]]
      simp only [List.take_succ_cons]
      rw [historicalLoop_deleted n (es.erase v) (hnd.erase v) (by omega),
        globSortedCores_erase hA]

/-!  Claim theorems. -/

/-- C5: during a retention pass, an unlink attempt that fails with `ENOENT`
is benign: the pass's deletions and its abort status are exactly those of
the same pass without that entry (so the remaining entries are still
processed and no fatal error arises from it), and the vanished entry is
recorded separately instead of being counted as deleted. -/
theorem c5_enoent_benign (entries : List String) (m : Nat)
    (u : String → UnlinkResult) (l1 : List String) (v : String)
    (l2 : List String)
    (hsplit : victims (scanCores entries 0) m = l1 ++ v :: l2)
    (hv : u v = .enoent)
    (h1 : (deleteLoop u l1).abortErr = none) :
    (limit_core_files entries m u).deletedNames =
      (deleteLoop u (l1 ++ l2)).deleted ∧
    (limit_core_files entries m u).ret =
      (match (deleteLoop u (l1 ++ l2)).abortErr with
       | none => ((deleteLoop u (l1 ++ l2)).deleted.length : Int)
       | some e2 => -(e2 : Int)) ∧
    v ∈ (limit_core_files entries m u).vanished := by
  have hcons : deleteLoop u (v :: l2) =
      ⟨(deleteLoop u l2).deleted, v :: (deleteLoop u l2).vanished,
       (deleteLoop u l2).abortErr⟩ := by
    simp [deleteLoop, hv]
  have hloop : deleteLoop u (victims (scanCores entries 0) m) =
      ⟨(deleteLoop u l1).deleted ++ (deleteLoop u l2).deleted,
       (deleteLoop u l1).vanished ++ (v :: (deleteLoop u l2).vanished),
       (deleteLoop u l2).abortErr⟩ := by
    rw [hsplit, deleteLoop_append u l1 (v :: l2) h1, hcons]
  have hloop2 := deleteLoop_append u l1 l2 h1
  refine ⟨?_, ?_, ?_⟩
  · simp only [limit_core_files, hloop, hloop2]
  · simp only [limit_core_files, hloop, hloop2]
  · simp only [limit_core_files, hloop]
    simp

theorem c5_witness :
    goneA "core.a" = .enoent ∧
    "core.a" ∈ (limit_core_files ["core.a", "core.b", "core.c"] 1 goneA).vanished :=
  ⟨by decide, (c5_enoent_benign ["core.a", "core.b", "core.c"] 1 goneA []
    "core.a" ["core.b"] (by decide) (by decide) (by decide)).2.2⟩

/-- C2 (amended): a deletion failure other than `ENOENT` aborts the pass at
once — `goto done` — so the entries after the failing one are not attempted
and the function returns only the negated errno, discarding the count of
entries already deleted: partial success is not representable in the
return value. -/
theorem c2_abort_on_error (entries : List String) (m : Nat)
    (u : String → UnlinkResult) (l1 : List String) (v : String)
    (l2 : List String) (e : Nat)
    (hsplit : victims (scanCores entries 0) m = l1 ++ v :: l2)
    (hok : ∀ x ∈ l1, (u x).isFail = false) (hv : u v = .fail e) :
    (limit_core_files entries m u).ret = -(e : Int) ∧
    (limit_core_files entries m u).deletedNames =
      l1.filter (fun x => u x == .ok) := by
  have hloop := deleteLoop_abort u l1 v l2 e hok hv
  constructor <;> simp [limit_core_files, hsplit, hloop]

theorem c2_witness :
    eaccesOn2 "core.2" = .fail 13 ∧
    (limit_core_files ["core.1", "core.2", "core.3", "core.4"] 1
      eaccesOn2).ret = -13 := by
  refine ⟨by decide, ?_⟩
  have h := (c2_abort_on_error ["core.1", "core.2", "core.3", "core.4"] 1
    eaccesOn2 ["core.1"] "core.2" ["core.3"] 13 (by decide)
    (by decide) (by decide)).1
  simpa using h

/-- C2 (counterexample): with four core files, `max_cores = 1` and an
`EACCES` failure on `core.2`, the pass stops: `core.3` — although
deletable — is never unlinked, and the return value is `-13` with the one
successful deletion (`core.1`) not reported.  This refutes the claim that a
non-`ENOENT` failure does not abort the remaining deletions and that the
result carries the deleted count alongside the error. -/
theorem c2_counterexample :
    eaccesOn2 "core.3" = .ok ∧
    "core.3" ∉ (limit_core_files ["core.1", "core.2", "core.3", "core.4"] 1
      eaccesOn2).deletedNames ∧
    (limit_core_files ["core.1", "core.2", "core.3", "core.4"] 1
      eaccesOn2).deletedNames = ["core.1"] ∧
    (limit_core_files ["core.1", "core.2", "core.3", "core.4"] 1
      eaccesOn2).ret = -13 := by
  decide

/-- C9: after a retention pass over the entries it enumerated, deletion is
oldest-first: every enumerated entry still present after the pass is
lexically greater (newer under the pass's ordering key) than every entry
the pass deleted. -/
theorem c9_oldest_first (entries : List String) (m : Nat)
    (u : String → UnlinkResult) (hnd : entries.Nodup) :
    ∀ r ∈ retainedScanned entries (limit_core_files entries m u),
    ∀ d ∈ (limit_core_files entries m u).deletedNames,
      charsLt d.data r.data = true := by
  intro r hr d hd
  have hscnd : (scanCores entries 0).Nodup :=
    (scanCores_sublist entries).nodup hnd
  simp only [retainedScanned, limit_core_files] at hr hd
  have hrmem : r ∈ scanCores entries 0 := List.mem_of_mem_filter hr
  have hrpred := List.of_mem_filter hr
  simp only [decide_eq_true_eq] at hrpred
  obtain ⟨hrdel, hrvan⟩ := hrpred
  by_cases hrv : r ∈ victims (scanCores entries 0) m
  · exact deleteLoop_sorted_lt u _ (victims_pairwise hscnd m) d hd r hrv
      hrdel hrvan
  · have hrs : r ∈ sortCores (scanCores entries 0) :=
      ((sortCores_perm _).mem_iff).mpr hrmem
    rw [← List.take_append_drop m (sortCores (scanCores entries 0))] at hrs
    rcases List.mem_append.mp hrs with hrtake | hrdrop
    · have hdvs : d ∈ victims (scanCores entries 0) m :=
        deleteLoop_deleted_mem u _ d hd
      rw [mem_victims] at hdvs
      exact kept_victims_lt hscnd m r hrtake d hdvs
    · exact absurd (mem_victims.mpr hrdrop) hrv

theorem c9_witness :
    (["core.b", "junk", "core.a", "core.c"] : List String).Nodup ∧
    charsLt "core.b".data "core.c".data = true :=
  ⟨by decide, c9_oldest_first ["core.b", "junk", "core.a", "core.c"] 1 goneA
    (by decide) "core.c" (by decide) "core.b" (by decide)⟩

/-- C8: two invocations with the same executable tag but different capture
seconds produce different artifact names — the absolute timestamp is
embedded between the underscore and the dot, so the names cannot
coincide. -/
theorem c8_distinct_names (y1 m1 d1 e1 y2 m2 d2 e2 : Nat) (exe : String)
    (hne : e1 ≠ e2) :
    coreBaseName y1 m1 d1 e1 exe ≠ coreBaseName y2 m2 d2 e2 exe := by
  intro heq
  have hdata := congrArg String.data heq
  have h1 := epochDigits_coreBaseName y1 m1 d1 e1 exe
  have h2 := epochDigits_coreBaseName y2 m2 d2 e2 exe
  rw [hdata, h2] at h1
  exact hne (natRepr_inj h1).symm

theorem c8_witness :
    (1760000000 : Nat) ≠ 1760000001 ∧
    coreBaseName 2025 9 9 1760000000 "app" ≠
      coreBaseName 2025 9 9 1760000001 "app" :=
  ⟨by decide, c8_distinct_names 2025 9 9 1760000000 2025 9 9 1760000001
    "app" (by decide)⟩

/-- C7 (code bug): `parse_options` only rejects a `-m` value whose `atoi`
result is 0, despite its own error message demanding a number greater than
0.  The value `-5` parses to `-5 ≠ 0` and is accepted, although it is not a
positive integer. -/
theorem c7_negative_max_accepted :
    atoi "-5" = -5 ∧ parse_max_cores "-5" = some (-5) ∧
      ¬(0 < (-5 : Int)) := by
  decide

/-- C3 (code bug): the copy loop tests `ferror(fp)` — the destination
stream — where its own log message says it is checking for an error
reading stdin.  When stdin errors after 3 bytes while the destination's
error indicator is clear, the loop treats the short read as end of file:
the truncated file is kept as if complete, no I/O error is reported, the
run continues to retention and notification, and the process exits 0. -/
theorem c3_read_error_swallowed :
    envReadError.copy.stdinErrored = true ∧
    (mainModel envReadError).exitCode = 0 ∧
    (mainModel envReadError).coreFile = some [1, 2, 3] ∧
    (mainModel envReadError).notifierRan = true := by
  decide

/-- C6 (amended): when the retention pass cannot enumerate the directory,
`main` logs the failure and still proceeds to the notification step — but
the process exit status is 0, not non-zero: the enumeration failure is not
reflected in the exit code. -/
theorem c6_continue_exit_zero (env : MainEnv) (e : Nat)
    (hp : env.parseOk = true) (hf : env.fopenErr = none)
    (hc : (copyLoop env.copy.destErrFlag env.copy.errnoVal
      env.copy.chunks).2 = none)
    (hd : env.dirListing = .error e) :
    (mainModel env).notifierRan = true ∧ (mainModel env).exitCode = 0 ∧
    (mainModel env).retentionRet = some (-(e : Int)) := by
  simp [mainModel, hp, hf, hc, hd, limit_core_files_run]

theorem c6_witness :
    envEnumFail.parseOk = true ∧
    (mainModel envEnumFail).notifierRan = true ∧
    (mainModel envEnumFail).exitCode = 0 :=
  ⟨rfl, (c6_continue_exit_zero envEnumFail 13 rfl rfl (by decide) rfl).1,
    ((c6_continue_exit_zero envEnumFail 13 rfl rfl (by decide) rfl).2).1⟩

/-- C6 (counterexample): with the dump written successfully and `opendir`
failing with `EACCES` (13), the process still notifies but exits 0 — the
claim that the exit status is non-zero after an enumeration failure is
false. -/
theorem c6_counterexample :
    envEnumFail.dirListing = Except.error 13 ∧
    (mainModel envEnumFail).retentionRet = some (-13) ∧
    (mainModel envEnumFail).notifierRan = true ∧
    (mainModel envEnumFail).exitCode = 0 := by
  refine ⟨rfl, ?_, ?_, ?_⟩ <;> decide

/-- C4 (counterexample): the month field `tm_mon` is not zero-padded, so
name generation is not monotonic in time under the lexical comparator.
Capture 1: 2025-10-09 (tm_mon 9), epoch 1759900000.  Capture 2:
2025-11-04 (tm_mon 10), epoch 1762300000 — later in time, yet its name
compares lexically *smaller* (the character `1` of `10` sorts below the
`9`), so the newer artifact would be deleted before the older one. -/
theorem c4_counterexample :
    (1759900000 : Nat) < 1762300000 ∧
    charsLt (coreBaseName 2025 9 9 1759900000 "app").data
      (coreBaseName 2025 10 4 1762300000 "app").data = false ∧
    charsLt (coreBaseName 2025 10 4 1762300000 "app").data
      (coreBaseName 2025 9 9 1759900000 "app").data = true := by
  have h1 : natChars 2025 = "2025".data := by simp [natChars]
  have h2 : natChars 10 = "10".data := by simp [natChars]
  have h3 : natChars 4 = "4".data := by simp [natChars]
  have h4 : natChars 1762300000 = "1762300000".data := by simp [natChars]
  have h5 : natChars 9 = "9".data := by simp [natChars]
  have h6 : natChars 1759900000 = "1759900000".data := by simp [natChars]
  refine ⟨by decide, ?_, ?_⟩ <;>
  · simp only [coreBaseName, corePre, natRepr, reduceIte, h1, h2, h3, h4,
      h5, h6]
    decide

/-- C4 (amended): the ordering key is monotonic in time only within one
calendar date: with equal year, month and day fields and epoch seconds of
equal decimal width, the earlier capture's name sorts lexically below
(hence is deleted before) the later one's, whatever the executable tags.
Across a boundary where the month or day string gains a digit the order
inverts, as the counterexample shows. -/
theorem c4_same_date_monotone (y m d e1 e2 : Nat) (exe1 exe2 : String)
    (hlt : e1 < e2)
    (hlen : (natChars e1).length = (natChars e2).length) :
    charsLt (coreBaseName y m d e1 exe1).data
      (coreBaseName y m d e2 exe2).data = true := by
  have h2 : e2 ≠ 0 := by omega
  have h1 : e1 ≠ 0 := by
    intro h0
    rw [h0, natChars_zero, natChars_pos h2] at hlen
    simp at hlen
  unfold coreBaseName
  simp only [String.data_append, List.append_assoc]
  simp only [charsLt_append_same]
  rw [natRepr_data_pos h1, natRepr_data_pos h2]
  exact charsLt_append_of_lt hlen (natChars_lt hlt hlen) _ _

theorem c4_witness :
    (1760000000 : Nat) < 1760003600 ∧
    charsLt (coreBaseName 2025 9 9 1760000000 "a").data
      (coreBaseName 2025 9 9 1760003600 "b").data = true :=
  ⟨by decide, c4_same_date_monotone 2025 9 9 1760000000 1760003600 "a" "b"
    (by decide) (by simp [natChars])⟩

/-!  Facts about the over-cap directory `bigDir`. -/

theorem isCore_append (t : String) : isCoreFileName (corePre ++ t) = true := by
  unfold isCoreFileName
  rw [String.data_append,
    show (5 : Nat) = corePre.data.length from rfl, List.take_left]
  simp

theorem bigDir_filter : bigDir.filter isCoreFileName = bigDir := by
  rw [List.filter_eq_self]
  intro a ha
  simp only [bigDir] at ha
  rcases List.mem_map.mp ha with ⟨i, _, rfl⟩
  exact isCore_append (natRepr i)

theorem bigDir_length : bigDir.length = 500002 := by
  rw [bigDir, List.length_map, List.length_range]

/-- A pass over 500002 core files scans only the first 500001 and, with
`max_cores = 1`, deletes 500000 of them. -/
theorem bigDir_limit_deleted :
    (limit_core_files bigDir 1 allOk).deletedNames.length = 500000 ∧
    (limit_core_files bigDir 1 allOk).ret = 500000 := by
  have hscan : scanCores bigDir 0 = bigDir.take 500001 := by
    rw [scanCores_eq_take bigDir 0 (Nat.zero_le _), bigDir_filter]
    norm_num [MAX_CORE_SCAN]
  have hlen : (bigDir.take 500001).length = 500001 := by
    rw [List.length_take, bigDir_length]
    omega
  have hvlen : (victims (bigDir.take 500001) 1).length = 500000 := by
    unfold victims
    rw [List.length_reverse, List.length_drop, (sortCores_perm _).length_eq,
      hlen]
  constructor
  · simp only [limit_core_files, hscan, deleteLoop_allOk allOk (fun _ => rfl)]
    exact hvlen
  · simp only [limit_core_files, hscan, deleteLoop_allOk allOk (fun _ => rfl)]
    rw [hvlen]
    rfl

/-- C1 (counterexample): a directory of `K = 500002` matching artifacts
with `N = 1` — more than the scan cap `MAX_CORE_SCAN` — makes the pass
return 500000 deletions, not `K - N = 500001`: the universally quantified
claim fails beyond the cap. -/
theorem c1_counterexample :
    (bigDir.filter isCoreFileName).length = 500002 ∧
    (limit_core_files bigDir 1 allOk).ret = 500000 ∧
    (500000 : Int) ≠ ((bigDir.filter isCoreFileName).length : Int) - 1 := by
  refine ⟨?_, bigDir_limit_deleted.2, ?_⟩ <;>
    rw [bigDir_filter, bigDir_length]
  decide

/-- C1 (amended): for a duplicate-free directory whose matching-artifact
count `K` does not exceed the scan cap (`MAX_CORE_SCAN + 1` names), a pass
with `max_cores = N ≥ 1` and no deletion errors leaves exactly `min K N`
matching artifacts and returns `max 0 (K - N)` as the number deleted. -/
theorem c1_retention_within_cap (entries : List String) (N : Nat)
    (_hN : 1 ≤ N) (hnd : entries.Nodup)
    (hlen : (entries.filter isCoreFileName).length ≤ MAX_CORE_SCAN + 1) :
    ((remainingDir entries (limit_core_files entries N allOk)).filter
        isCoreFileName).length =
      min (entries.filter isCoreFileName).length N ∧
    (limit_core_files entries N allOk).ret =
      max 0 (((entries.filter isCoreFileName).length : Int) - (N : Int)) := by
  refine ⟨remainingDir_count hnd hlen N, ?_⟩
  rw [limit_allOk_outcome hlen]
  dsimp only
  omega

theorem c1_witness :
    (1 : Nat) ≤ 2 ∧
    (["core.b", "core.a", "junk", "core.c"] : List String).Nodup ∧
    (["core.b", "core.a", "junk", "core.c"].filter isCoreFileName).length ≤
      MAX_CORE_SCAN + 1 ∧
    (((remainingDir ["core.b", "core.a", "junk", "core.c"]
        (limit_core_files ["core.b", "core.a", "junk", "core.c"] 2
          allOk)).filter isCoreFileName).length =
      min (["core.b", "core.a", "junk",
        "core.c"].filter isCoreFileName).length 2 ∧
    (limit_core_files ["core.b", "core.a", "junk", "core.c"] 2 allOk).ret =
      max 0 (((["core.b", "core.a", "junk",
        "core.c"].filter isCoreFileName).length : Int) - (2 : Int))) :=
  ⟨by decide, by decide, by decide,
    c1_retention_within_cap ["core.b", "core.a", "junk", "core.c"] 2
      (by decide) (by decide) (by decide)⟩

/-- C10 (counterexample): on 500002 matching artifacts with
`max_cores = 1`, the current pass deletes 500000 entries (its scan stops at
the cap) while the historical count-and-reglob variant deletes 500001, so
the two do not delete the same set. -/
theorem bigDir_count : count_core_files bigDir = 500002 := by
  unfold count_core_files
  rw [fnmatch_eq_isCore, bigDir_filter, bigDir_length]

/-- Projection of the historical retention result, kept symbolic so that
ground instances never force evaluation of the loop. -/
theorem historical_deletedNames_eq (es : List String) (m : Nat) :
    (historical_retention es m).deletedNames =
      (historicalLoop es (count_core_files es - m)).2 := rfl

theorem bigDir_historical_deleted :
    (historical_retention bigDir 1).deletedNames.length = 500001 := by
  rw [historical_deletedNames_eq, bigDir_count]
  norm_num
  exact historicalLoop_length 500001 bigDir (by rw [bigDir_count]; decide)

theorem c10_counterexample :
    (limit_core_files bigDir 1 allOk).deletedNames.length = 500000 ∧
    (historical_retention bigDir 1).deletedNames.length = 500001 ∧
    (limit_core_files bigDir 1 allOk).deletedNames ≠
      (historical_retention bigDir 1).deletedNames := by
  refine ⟨bigDir_limit_deleted.1, bigDir_historical_deleted, ?_⟩
  intro heq
  have hcur := bigDir_limit_deleted.1
  rw [heq, bigDir_historical_deleted] at hcur
  omega

/-- C10 (amended): below the scan cap the two implementations agree: on a
duplicate-free directory with at most `MAX_CORE_SCAN + 1` matching names
and no errors, the current pass and the historical variant delete exactly
the same list of names, namely the `K - max_cores` lexically smallest
matching names in ascending order. -/
theorem c10_equiv_within_cap (entries : List String) (m : Nat)
    (hnd : entries.Nodup)
    (hlen : (entries.filter isCoreFileName).length ≤ MAX_CORE_SCAN + 1) :
    (limit_core_files entries m allOk).deletedNames =
      (historical_retention entries m).deletedNames ∧
    (limit_core_files entries m allOk).deletedNames =
      (globSortedCores entries).take (count_core_files entries - m) := by
  have hcount : count_core_files entries =
      (entries.filter isCoreFileName).length := by
    unfold count_core_files
    rw [fnmatch_eq_isCore]
  have hcur : (limit_core_files entries m allOk).deletedNames =
      (globSortedCores entries).take (count_core_files entries - m) := by
    rw [limit_allOk_outcome hlen]
    dsimp only
    rw [victims_eq_take_asc]
    unfold globSortedCores
    rw [fnmatch_eq_isCore, hcount]
  have hhist : (historical_retention entries m).deletedNames =
      (globSortedCores entries).take (count_core_files entries - m) := by
    simp only [historical_retention]
    exact historicalLoop_deleted _ entries hnd (Nat.sub_le _ _)
  exact ⟨hcur.trans hhist.symm, hcur⟩

theorem c10_witness :
    (["core.0003", "junk", "core.0001", "core.0005", "core.0002",
      "core.0004"] : List String).Nodup ∧
    (limit_core_files ["core.0003", "junk", "core.0001", "core.0005",
      "core.0002", "core.0004"] 3 allOk).deletedNames =
      (historical_retention ["core.0003", "junk", "core.0001", "core.0005",
        "core.0002", "core.0004"] 3).deletedNames :=
  ⟨by decide, (c10_equiv_within_cap ["core.0003", "junk", "core.0001",
    "core.0005", "core.0002", "core.0004"] 3 (by decide) (by decide)).1⟩

/-!  Supporting fact for C3: the half of the claim the code does satisfy.
When stdin delivers the whole stream and ends cleanly, the copy loop
writes exactly the stream's bytes and reports no error. -/

theorem copyLoop_chunkify_aux (eno : Nat) : ∀ (n : Nat) (l : List Nat),
    l.length ≤ n → copyLoop false eno (chunkify l) = (l, none)
  | 0, l, h => by
    have hl : l.length < BUF_SIZE := by
      simp only [BUF_SIZE]
      omega
    rw [chunkify, if_pos hl]
    simp [copyLoop, Nat.ne_of_lt hl]
  | n + 1, l, h => by
    by_cases hl : l.length < BUF_SIZE
    · rw [chunkify, if_pos hl]
      simp [copyLoop, Nat.ne_of_lt hl]
    · rw [chunkify, if_neg hl]
      have htake : (l.take BUF_SIZE).length = BUF_SIZE := by
        rw [List.length_take]
        omega
      have hrec := copyLoop_chunkify_aux eno n (l.drop BUF_SIZE) (by
        rw [List.length_drop]
        simp only [BUF_SIZE] at hl ⊢
        omega)
      simp [copyLoop, htake, hrec]

/-- An error-free stream of `B` bytes yields a file of exactly those `B`
bytes and no error exit from the copy loop. -/
theorem copyLoop_exact_bytes (eno : Nat) (l : List Nat) :
    copyLoop false eno (chunkify l) = (l, none) :=
  copyLoop_chunkify_aux eno l.length l (le_refl _)

end HandleCore
